import Mathlib

/-!
Shallow embedding of `src/web/bus_collection_builder.py` (osm-relatify).

The source resolves bus-stop records (platforms / stop positions) into
collections pairing a platform with its stop position.  External
collaborators that are not part of this repository's source — the
great-circle (haversine) distance function, the spatial index's metric and
the configured search radius — are modelled as parameters: `d` is the
distance on coordinates (the source's `haversine_distance` / the BallTree
haversine metric on radian tuples) and `r` is the angular search radius
(the source's `search_latLng_rad`, derived from
`BUS_COLLECTION_SEARCH_AREA / 111_111`).  Coordinates are pairs of
rationals; distances are rationals.

`scipy.optimize.linear_sum_assignment` (minimum-cost bipartite assignment)
is modelled by exhaustive enumeration of all injective index assignments,
picking one of minimal total cost; the source relies only on minimality
of the returned assignment.  `BallTree.query` (nearest neighbour) is
modelled by a direct arg-min scan; `BallTree.query_radius` with
`sort_results=True` by filtering and sorting by ascending distance.
-/

namespace BusCollection

/-- A latitude/longitude coordinate (the source's `latLng`). -/
abbrev LatLng := ℚ × ℚ

/-- The closed `public_transport` category set
(`models.fetch_relation.PublicTransport`). -/
inductive PublicTransport where
  | platform
  | stop_position
deriving DecidableEq

/-- A bus-stop record (`models.fetch_relation.FetchRelationBusStop`), with the
fields the builder reads: `id` (sort key), `latLng`, `groupName`, `highway`
(explicit records carry `highway == 'bus_stop'`) and `public_transport`. -/
structure BusStop where
  id : ℕ
  latLng : LatLng
  groupName : String
  highway : String
  public_transport : PublicTransport
deriving DecidableEq

instance : Inhabited BusStop := ⟨⟨0, (0, 0), "", "", PublicTransport.platform⟩⟩

/-- An output collection (`FetchRelationBusStopCollection`): an optional
platform and an optional stop position. -/
structure Collection where
  platform : Option BusStop
  stop : Option BusStop
deriving DecidableEq

/-- The source's `_pick_best`: split a record list into the explicit records
(`highway == 'bus_stop'`) and the implicit ones, preserving order. -/
def pick_best (elements : List BusStop) : List BusStop × List BusStop :=
  (elements.filter (fun e => e.highway == "bus_stop"),
   elements.filter (fun e => e.highway != "bus_stop"))

/-- First element of minimal `f`-value in a list. -/
def argminBy (f : α → ℚ) : List α → Option α
  | [] => none
  | x :: xs =>
    match argminBy f xs with
    | none => some x
    | some b => if f x ≤ f b then some x else some b

/-- Nearest candidate to `p` by distance `d`, earliest index winning ties
(models the BallTree `query(..., k=1)` call in `_assign`). -/
def nearestElem (d : LatLng → LatLng → ℚ) (p : BusStop) (es : List BusStop) :
    Option BusStop :=
  argminBy (fun e => d p.latLng e.latLng) es

/-- All length-`n` lists of pairwise-distinct indices `< m`: the candidate
assignments among which `linear_sum_assignment` minimizes. -/
def injSeqs (m : ℕ) : ℕ → List (List ℕ)
  | 0 => [[]]
  | n + 1 =>
    (injSeqs m n).flatMap fun l =>
      ((List.range m).filter (fun j => !l.contains j)).map (fun j => l ++ [j])

/-- Total distance of an assignment `l` (the `distance_matrix` cost summed
over the chosen entries). -/
def assignCost (d : LatLng → LatLng → ℚ) (primary elements : List BusStop)
    (l : List ℕ) : ℚ :=
  ((primary.zip l).map (fun pe => d pe.1.latLng (elements.getD pe.2 default).latLng)).sum

/-- The Hungarian branch of `_assign`: a minimal-total-distance injective
assignment of candidates to primaries, in primary order (the source sorts
`linear_sum_assignment`'s output by row index). -/
def hungarianAssign (d : LatLng → LatLng → ℚ) (primary elements : List BusStop) :
    List (Option BusStop) :=
  match argminBy (assignCost d primary elements) (injSeqs elements.length primary.length) with
  | none => []
  | some l => l.map (fun j => some (elements.getD j default))

/-- The source's `_assign(primary, elements, element_reuse)`. -/
def assign (d : LatLng → LatLng → ℚ) (primary elements : List BusStop)
    (element_reuse : Bool) : List (Option BusStop) :=
  if 2 ≤ elements.length then
    if elements.length < primary.length then
      if !element_reuse then List.replicate primary.length none
      else primary.map (fun p => nearestElem d p elements)
    else
      hungarianAssign d primary elements
  else if elements.length = 1 then
    if !element_reuse && 1 < primary.length then List.replicate primary.length none
    else List.replicate primary.length (some (elements.getD 0 default))
  else
    List.replicate primary.length none

/-- Insert `x` into a list sorted by the boolean order `le`, after existing
equal elements (stable insertion). -/
def insertLE (le : α → α → Bool) (x : α) : List α → List α
  | [] => [x]
  | y :: ys => if le x y then x :: y :: ys else y :: insertLE le x ys

/-- Stable insertion sort by the boolean order `le`. -/
def sortLE (le : α → α → Bool) (xs : List α) : List α :=
  xs.foldl (fun acc x => insertLE le x acc) []

/-- Neighbour order used by `query_radius(..., sort_results=True)`: ascending
distance from point `c`, index breaking ties. -/
def nbrLE (d : LatLng → LatLng → ℚ) (c : LatLng) (coords : List LatLng)
    (j k : ℕ) : Bool :=
  d c (coords.getD j default) < d c (coords.getD k default) ||
    (d c (coords.getD j default) == d c (coords.getD k default) && j ≤ k)

/-- The radius query for record `i`: all other indices within distance `r`
of `coords[i]`, sorted by ascending distance (the source walks
`indices[1:]`, skipping the point itself which is first at distance 0). -/
def neighbors (d : LatLng → LatLng → ℚ) (r : ℚ) (coords : List LatLng)
    (i : ℕ) : List ℕ :=
  sortLE (nbrLE d (coords.getD i default) coords)
    ((List.range coords.length).filter
      (fun j => j != i && decide (d (coords.getD i default) (coords.getD j default) ≤ r)))

/-- Walk a neighbour list and return the area of the first neighbour that is
already assigned in `areas`. -/
def firstAssigned (areas : List (ℕ × ℕ)) : List ℕ → Option ℕ
  | [] => none
  | j :: js =>
    match areas.lookup j with
    | some a => some a
    | none => firstAssigned areas js

/-- The area-grouping loop of `build_bus_stop_collections`: process indices in
order; each record joins the area of its nearest already-assigned in-radius
neighbour, or roots a new area.  Returns the `areas` dict as an association
list in index order. -/
def computeAreas (d : LatLng → LatLng → ℚ) (r : ℚ) (coords : List LatLng) :
    List (ℕ × ℕ) :=
  (List.range coords.length).foldl
    (fun areas i =>
      match firstAssigned areas (neighbors d r coords i) with
      | some a => areas ++ [(i, a)]
      | none => areas ++ [(i, i)])
    []

/-- Append `x` to the group keyed `k`, creating the group at the end if absent
(a `defaultdict(list)` whose keys keep insertion order). -/
def addToGroup [BEq κ] : List (κ × List β) → κ → β → List (κ × List β)
  | [], k, x => [(k, [x])]
  | (k', ys) :: rest, k, x =>
    if k' == k then (k', ys ++ [x]) :: rest else (k', ys) :: addToGroup rest k x

/-- Group a list by a key function, keys in first-occurrence order, values in
list order (a `defaultdict(list)` fill loop). -/
def groupByKey [BEq κ] (key : β → κ) (xs : List β) : List (κ × List β) :=
  xs.foldl (fun acc x => addToGroup acc (key x) x) []

/-- The `area_groups` mapping: the members of each area, keyed by area root, keys in
first-assignment order. -/
def areaGroups (d : LatLng → LatLng → ℚ) (r : ℚ) (bus_stops : List BusStop) :
    List (List BusStop) :=
  (groupByKey Prod.snd (computeAreas d r (bus_stops.map (fun b => b.latLng)))).map
    (fun g => g.2.map (fun p => bus_stops.getD p.1 default))

/-- The `name_groups` mapping before merging: group an area's members by `groupName`, then
discard the empty-label group when more than one distinct label exists. -/
def dropUnnamed (gs : List (String × List BusStop)) : List (String × List BusStop) :=
  if 1 < gs.length then gs.filter (fun g => g.1 != "") else gs

/-- Split a character list on a separator character, keeping empty pieces
(the character-level model of Python's `str.split(' ')`). -/
def splitChar (c : Char) : List Char → List (List Char)
  | [] => [[]]
  | x :: xs =>
    let r := splitChar c xs
    if x == c then [] :: r
    else
      match r with
      | [] => [[x]]
      | y :: ys => (x :: y) :: ys

/-- Python `key.split(' ')`. -/
def splitKey (s : String) : List String := (splitChar ' ' s.data).map String.mk

/-- Python `str.isdecimal` restricted to ASCII digits, as the suffix test
`parts[-1].isdecimal()` uses it. -/
def isdecimal (s : String) : Bool := s != "" && s.data.all Char.isDigit

/-- The numbered-suffix test: `"Main St 1"` yields prefix `"Main St"`. -/
def pfxOf (key : String) : Option String :=
  let parts := splitKey key
  if 1 < parts.length ∧ isdecimal (parts.getLastD "") then
    some (String.intercalate " " parts.dropLast)
  else
    none

/-- The `prefix_map`: group the numbered keys by their bare prefix, in key order. -/
def pfxMap (gs : List (String × List BusStop)) : List (String × List String) :=
  gs.foldl
    (fun acc g =>
      match pfxOf g.1 with
      | some p => addToGroup acc p g.1
      | none => acc)
    []

/-- Replace the value stored at key `k`. -/
def setKey [BEq κ] (gs : List (κ × β)) (k : κ) (v : β) : List (κ × β) :=
  gs.map (fun g => if g.1 == k then (k, v) else g)

/-- Remove the entry at key `k` (`dict.pop`). -/
def removeKey [BEq κ] (gs : List (κ × β)) (k : κ) : List (κ × β) :=
  gs.filter (fun g => g.1 != k)

/-- The inner merge loop for one numbered group: append each bare-prefix
record whose category is absent from the group *as already extended by the
earlier appends of this same pass*; the flag records whether any append
happened. -/
def appendMissing : List BusStop → List BusStop → List BusStop × Bool
  | g, [] => (g, false)
  | g, p :: ps =>
    if g.any (fun b => b.public_transport == p.public_transport) then
      appendMissing g ps
    else
      ((appendMissing (g ++ [p]) ps).1, true)

/-- Merge one bare-prefix group into its numbered groups; when at least one
append succeeded across the numbered groups, drop the bare-prefix group.
(The lookup-miss fallbacks keep the state unchanged; the numbered-key miss
corresponds to a `KeyError` in the source, unreachable in the cases the
claims exercise.) -/
def mergePfx (gs : List (String × List BusStop)) (pfx : String)
    (keys : List String) : List (String × List BusStop) :=
  match gs.lookup pfx with
  | none => gs
  | some pfxGroup =>
    let st := keys.foldl
      (fun (st : List (String × List BusStop) × Bool) key =>
        match st.1.lookup key with
        | none => st
        | some g =>
          let gb := appendMissing g pfxGroup
          (setKey st.1 key gb.1, st.2 || gb.2))
      (gs, false)
    if st.2 then removeKey st.1 pfx else st.1

/-- The whole numbered-suffix merge pass (`prefix_map` is computed before any
merging, then each prefix entry is processed in order). -/
def mergeGroups (gs : List (String × List BusStop)) : List (String × List BusStop) :=
  (pfxMap gs).foldl (fun acc pm => mergePfx acc pm.1 pm.2) gs

/-- NameGrouper for one area: group by label, discard unnamed stragglers,
merge numbered sub-groups. -/
def processArea (area : List BusStop) : List (String × List BusStop) :=
  mergeGroups (dropUnnamed (groupByKey BusStop.groupName area))

/-- A group's platform partition, sorted by `id` (stable). -/
def groupPlatforms (grp : List BusStop) : List BusStop :=
  sortLE (fun a b => a.id ≤ b.id)
    (grp.filter (fun b => b.public_transport == PublicTransport.platform))

/-- A group's stop-position partition, sorted by `id` (stable). -/
def groupStops (grp : List BusStop) : List BusStop :=
  sortLE (fun a b => a.id ≤ b.id)
    (grp.filter (fun b => b.public_transport == PublicTransport.stop_position))

/-- Matcher for one named group: the branch cascade of
`build_bus_stop_collections`, returning the emitted collections and the
warning messages printed. -/
def matchGroup (d : LatLng → LatLng → ℚ) (key : String) (grp : List BusStop) :
    List Collection × List String :=
  let platforms := groupPlatforms grp
  let stops := groupStops grp
  let pe := (pick_best platforms).1
  let pi := (pick_best platforms).2
  let se := (pick_best stops).1
  let si := (pick_best stops).2
  let warns :=
    if !pe.isEmpty && !se.isEmpty then
      ["🚧 Warning: Unexpected explicit platforms and stops for " ++ key]
    else []
  let cols :=
    if !pe.isEmpty then
      (pe.zip (assign d pe stops true)).map (fun ps => ⟨some ps.1, ps.2⟩)
    else if !se.isEmpty then
      (se.zip (assign d se platforms false)).map (fun sp => ⟨sp.2, some sp.1⟩)
    else if !pi.isEmpty && !si.isEmpty then
      (pi.zip (assign d pi stops true)).map (fun ps => ⟨some ps.1, ps.2⟩)
    else if !pi.isEmpty then
      pi.map (fun p => ⟨some p, none⟩)
    else
      si.map (fun s => ⟨none, some s⟩)
  (cols, warns)

/-- The named groups the matcher visits, over the whole input. -/
def allGroups (d : LatLng → LatLng → ℚ) (r : ℚ) (bus_stops : List BusStop) :
    List (String × List BusStop) :=
  (areaGroups d r bus_stops).flatMap processArea

/-- The source's `build_bus_stop_collections(bus_stops)`: the collections and the warnings,
for distance `d` and angular search radius `r`. -/
def build_bus_stop_collections (d : LatLng → LatLng → ℚ) (r : ℚ)
    (bus_stops : List BusStop) : List Collection × List String :=
  if bus_stops.isEmpty then ([], [])
  else
    let results := (allGroups d r bus_stops).map (fun g => matchGroup d g.1 g.2)
    ((results.map Prod.fst).flatten, (results.map Prod.snd).flatten)

/-- Whether an `_assign` call with these arguments takes the Hungarian branch
with strictly more candidates than primaries (the surplus case). -/
def surplusCall (primary elements : List BusStop) : Bool :=
  2 ≤ elements.length && primary.length < elements.length

/-- Whether the matcher's branch for this group performs a surplus Hungarian
assignment. -/
def matchGroupSurplus (grp : List BusStop) : Bool :=
  let platforms := groupPlatforms grp
  let stops := groupStops grp
  let pe := (pick_best platforms).1
  let pi := (pick_best platforms).2
  let se := (pick_best stops).1
  let si := (pick_best stops).2
  if !pe.isEmpty then surplusCall pe stops
  else if !se.isEmpty then surplusCall se platforms
  else if !pi.isEmpty && !si.isEmpty then surplusCall pi stops
  else false

/-- Whether any group of the whole run hits the Hungarian surplus case. -/
def hungarianSurplus (d : LatLng → LatLng → ℚ) (r : ℚ)
    (bus_stops : List BusStop) : Bool :=
  (allGroups d r bus_stops).any (fun g => matchGroupSurplus g.2)

/-! Concrete instantiations used by the example-level statements: a constant
zero distance (every pair within every positive radius) and the taxicab
distance on rational coordinates (symmetric, triangle-respecting, and
computable), standing in for the haversine metric. -/

/-- Constant-zero distance. -/
def dzero : LatLng → LatLng → ℚ := fun _ _ => 0

/-- Taxicab distance on rational coordinates. -/
def dtaxi : LatLng → LatLng → ℚ := fun a b => |a.1 - b.1| + |a.2 - b.2|

/-- A named implicit platform (paired with the unnamed `cB`). -/
def cA : BusStop := ⟨0, (0, 0), "A", "", PublicTransport.platform⟩

/-- An unnamed implicit platform, discarded once the named `cA` shares its
area. -/
def cB : BusStop := ⟨1, (0, 0), "", "", PublicTransport.platform⟩

/-- Explicit platform at `(0, 0)`. -/
def p0 : BusStop := ⟨0, (0, 0), "X", "bus_stop", PublicTransport.platform⟩

/-- Explicit platform at `(0, 3)`. -/
def p1 : BusStop := ⟨1, (0, 3), "X", "bus_stop", PublicTransport.platform⟩

/-- Implicit stop position at `(0, 0)`. -/
def s0 : BusStop := ⟨2, (0, 0), "X", "", PublicTransport.stop_position⟩

/-- Implicit stop position at `(0, 3)`. -/
def s1 : BusStop := ⟨3, (0, 3), "X", "", PublicTransport.stop_position⟩

/-- Implicit stop position at `(0, 10)`: the surplus candidate. -/
def s2 : BusStop := ⟨4, (0, 10), "X", "", PublicTransport.stop_position⟩

/-- An explicit stop position sharing a group with the explicit `p0`. -/
def s9 : BusStop := ⟨9, (0, 1), "X", "bus_stop", PublicTransport.stop_position⟩

/-- Platform of group `"Elm 1"`. -/
def ma : BusStop := ⟨0, (0, 0), "Elm 1", "", PublicTransport.platform⟩

/-- Stop position of group `"Elm 2"`. -/
def mb : BusStop := ⟨1, (0, 0), "Elm 2", "", PublicTransport.stop_position⟩

/-- Platform of the bare group `"Elm"`. -/
def mc : BusStop := ⟨2, (0, 0), "Elm", "", PublicTransport.platform⟩

/-- Stop position of the bare group `"Elm"`. -/
def me : BusStop := ⟨3, (0, 0), "Elm", "", PublicTransport.stop_position⟩

/-- An unnamed implicit platform. -/
def u0 : BusStop := ⟨0, (0, 0), "", "", PublicTransport.platform⟩

/-- An unnamed implicit stop position. -/
def u1 : BusStop := ⟨1, (0, 0), "", "", PublicTransport.stop_position⟩

/-- A named implicit platform (shares an area with the unnamed `u0`). -/
def y1 : BusStop := ⟨1, (0, 0), "A", "", PublicTransport.platform⟩

/-- Record at `(0, 0)` (area-chaining example, index 0). -/
def w0 : BusStop := ⟨0, (0, 0), "", "", PublicTransport.platform⟩

/-- Record at `(0, 7)` (area-chaining example, index 1). -/
def w1 : BusStop := ⟨1, (0, 7), "", "", PublicTransport.platform⟩

/-- Record at `(0, 14)` (area-chaining example, index 2). -/
def w2 : BusStop := ⟨2, (0, 14), "", "", PublicTransport.platform⟩

/-- Implicit platform primary at `(0, 0)`. -/
def q0 : BusStop := ⟨0, (0, 0), "G", "", PublicTransport.platform⟩

/-- Implicit platform primary at `(0, 4)`. -/
def q1 : BusStop := ⟨1, (0, 4), "G", "", PublicTransport.platform⟩

/-- Implicit platform primary at `(0, 9)`. -/
def q2 : BusStop := ⟨2, (0, 9), "G", "", PublicTransport.platform⟩

/-- Implicit stop candidate at `(0, 1)`. -/
def e0 : BusStop := ⟨3, (0, 1), "G", "", PublicTransport.stop_position⟩

/-- Implicit stop candidate at `(0, 8)`. -/
def e1 : BusStop := ⟨4, (0, 8), "G", "", PublicTransport.stop_position⟩

/-! Supporting lemmas. -/

theorem getD_mem {α : Type _} :
    ∀ (l : List α) (i : ℕ) (d0 : α), i < l.length → l.getD i d0 ∈ l
  | [], i, _, h => absurd h (by simp)
  | x :: xs, 0, _, _ => List.mem_cons_self x xs
  | x :: xs, i + 1, d0, h =>
    List.mem_cons_of_mem x (getD_mem xs i d0 (by simpa using h))

theorem argminBy_cons {α : Type _} (f : α → ℚ) (x : α) (xs : List α) :
    argminBy f (x :: xs) =
      match argminBy f xs with
      | none => some x
      | some b => if f x ≤ f b then some x else some b := rfl

theorem argminBy_spec {α : Type _} (f : α → ℚ) :
    ∀ l : List α, l ≠ [] → ∃ x, argminBy f l = some x ∧ x ∈ l ∧ ∀ y ∈ l, f x ≤ f y := by
  intro l
  induction l with
  | nil => intro h; exact absurd rfl h
  | cons x xs ih =>
    intro _
    cases hxs : xs with
    | nil =>
      subst hxs
      exact ⟨x, by simp [argminBy], by simp, by simp⟩
    | cons a as =>
      subst hxs
      obtain ⟨b, hb, hbm, hmin⟩ := ih (by simp)
      by_cases hle : f x ≤ f b
      · refine ⟨x, ?_, by simp, ?_⟩
        · rw [argminBy_cons, hb]
          simp [hle]
        · intro y hy
          rcases List.mem_cons.mp hy with rfl | hy
          · exact le_refl _
          · exact le_trans hle (hmin y hy)
      · refine ⟨b, ?_, List.mem_cons_of_mem _ hbm, ?_⟩
        · rw [argminBy_cons, hb]
          simp [hle]
        · intro y hy
          rcases List.mem_cons.mp hy with rfl | hy
          · exact le_of_not_le hle
          · exact hmin y hy

theorem nearestElem_spec (d : LatLng → LatLng → ℚ) (p : BusStop) (es : List BusStop)
    (h : es ≠ []) :
    ∃ c, nearestElem d p es = some c ∧ c ∈ es ∧
      ∀ e ∈ es, d p.latLng c.latLng ≤ d p.latLng e.latLng := by
  unfold nearestElem
  exact argminBy_spec (fun e => d p.latLng e.latLng) es h

theorem injSeqs_mem :
    ∀ {n m : ℕ} {l : List ℕ}, l ∈ injSeqs m n →
      l.length = n ∧ l.Nodup ∧ ∀ j ∈ l, j < m := by
  intro n
  induction n with
  | zero =>
    intro m l h
    simp only [injSeqs, List.mem_singleton] at h
    subst h
    simp
  | succ k ih =>
    intro m l h
    simp only [injSeqs, List.mem_flatMap, List.mem_map, List.mem_filter,
      List.mem_range] at h
    obtain ⟨t, ht, j, ⟨hjm, hjc⟩, rfl⟩ := h
    obtain ⟨htlen, htnd, htlt⟩ := ih ht
    have hjt : j ∉ t := by
      intro hj
      simp [List.contains, hj] at hjc
    refine ⟨by simp [htlen], ?_, ?_⟩
    · exact List.Nodup.append htnd (List.nodup_singleton j)
        (fun a ha hb => by simp at hb; subst hb; exact hjt ha)
    · intro x hx
      rcases List.mem_append.mp hx with hx | hx
      · exact htlt x hx
      · simp at hx
        subst hx
        exact hjm

theorem injSeqs_complete :
    ∀ {n m : ℕ} {l : List ℕ}, l.length = n → l.Nodup → (∀ j ∈ l, j < m) →
      l ∈ injSeqs m n := by
  intro n
  induction n with
  | zero =>
    intro m l hlen _ _
    rw [List.length_eq_zero] at hlen
    subst hlen
    simp [injSeqs]
  | succ k ih =>
    intro m l hlen hnd hlt
    have hne : l ≠ [] := by
      intro h
      subst h
      simp at hlen
    obtain ⟨t, j, heq⟩ : ∃ t j, l = t ++ [j] :=
      ⟨l.dropLast, l.getLast hne, (List.dropLast_append_getLast hne).symm⟩
    subst heq
    have hjt : j ∉ t := by
      intro hj
      exact (List.nodup_append.mp hnd).2.2 hj (List.mem_singleton_self j)
    simp only [injSeqs, List.mem_flatMap, List.mem_map, List.mem_filter,
      List.mem_range]
    refine ⟨t, ih ?_ ?_ ?_, j, ⟨hlt j (by simp), by simp [List.contains, hjt]⟩, rfl⟩
    · simpa using hlen
    · exact (List.nodup_append.mp hnd).1
    · intro x hx
      exact hlt x (List.mem_append_left _ hx)

theorem injSeqs_ne_nil {n m : ℕ} (h : n ≤ m) : injSeqs m n ≠ [] :=
  List.ne_nil_of_mem
    (injSeqs_complete (List.length_range n) (List.nodup_range n)
      (fun j hj => lt_of_lt_of_le (List.mem_range.mp hj) h))

theorem hungarianAssign_spec (d : LatLng → LatLng → ℚ) (primary elements : List BusStop)
    (h : primary.length ≤ elements.length) :
    ∃ l, hungarianAssign d primary elements =
        l.map (fun j => some (elements.getD j default)) ∧
      l ∈ injSeqs elements.length primary.length ∧
      ∀ l' ∈ injSeqs elements.length primary.length,
        assignCost d primary elements l ≤ assignCost d primary elements l' := by
  obtain ⟨l, hl, hlm, hmin⟩ :=
    argminBy_spec (assignCost d primary elements)
      (injSeqs elements.length primary.length) (injSeqs_ne_nil h)
  exact ⟨l, by simp [hungarianAssign, hl], hlm, hmin⟩

theorem assign_length (d : LatLng → LatLng → ℚ) (primary elements : List BusStop)
    (reuse : Bool) :
    (assign d primary elements reuse).length = primary.length := by
  unfold assign
  split
  · split
    · split <;> simp
    · rename_i hlt
      obtain ⟨l, hl, hlm, _⟩ := hungarianAssign_spec d primary elements (le_of_not_lt hlt)
      rw [hl, List.length_map, (injSeqs_mem hlm).1]
  · split
    · split <;> simp
    · simp

theorem assign_mem (d : LatLng → LatLng → ℚ) (primary elements : List BusStop)
    (reuse : Bool) :
    ∀ x ∈ assign d primary elements reuse, x = none ∨ ∃ e ∈ elements, x = some e := by
  intro x hx
  unfold assign at hx
  split at hx
  · rename_i h2
    split at hx
    · split at hx
      · exact Or.inl (List.eq_of_mem_replicate hx)
      · rw [List.mem_map] at hx
        obtain ⟨p, _, rfl⟩ := hx
        obtain ⟨c, hc, hcm, _⟩ :=
          nearestElem_spec d p elements (by intro h; subst h; simp at h2)
        exact Or.inr ⟨c, hcm, hc⟩
    · rename_i hlt
      obtain ⟨l, hl, hlm, _⟩ := hungarianAssign_spec d primary elements (le_of_not_lt hlt)
      rw [hl, List.mem_map] at hx
      obtain ⟨j, hj, rfl⟩ := hx
      exact Or.inr ⟨elements.getD j default,
        getD_mem _ _ _ ((injSeqs_mem hlm).2.2 j hj), rfl⟩
  · split at hx
    · rename_i h1
      split at hx
      · exact Or.inl (List.eq_of_mem_replicate hx)
      · have hxe := List.eq_of_mem_replicate hx
        subst hxe
        exact Or.inr ⟨elements.getD 0 default, getD_mem _ _ _ (by omega), rfl⟩
    · exact Or.inl (List.eq_of_mem_replicate hx)

theorem assign_some (d : LatLng → LatLng → ℚ) (primary elements : List BusStop)
    (hne : elements ≠ []) :
    ∀ x ∈ assign d primary elements true, ∃ e ∈ elements, x = some e := by
  intro x hx
  unfold assign at hx
  split at hx
  · rename_i h2
    split at hx
    · simp only [Bool.not_true] at hx
      rw [if_neg (by simp)] at hx
      rw [List.mem_map] at hx
      obtain ⟨p, _, rfl⟩ := hx
      obtain ⟨c, hc, hcm, _⟩ :=
        nearestElem_spec d p elements (by intro h; subst h; simp at h2)
      exact ⟨c, hcm, hc⟩
    · rename_i hlt
      obtain ⟨l, hl, hlm, _⟩ := hungarianAssign_spec d primary elements (le_of_not_lt hlt)
      rw [hl, List.mem_map] at hx
      obtain ⟨j, hj, rfl⟩ := hx
      exact ⟨elements.getD j default,
        getD_mem _ _ _ ((injSeqs_mem hlm).2.2 j hj), rfl⟩
  · split at hx
    · rename_i h1
      rw [if_neg (by simp)] at hx
      have hxe := List.eq_of_mem_replicate hx
      subst hxe
      exact ⟨elements.getD 0 default, getD_mem _ _ _ (by omega), rfl⟩
    · rename_i h2 h1
      exact absurd (List.length_eq_zero.mp (by omega)) hne

theorem mem_insertLE {α : Type _} (le : α → α → Bool) (a : α) :
    ∀ (l : List α) (x : α), x ∈ insertLE le a l ↔ x = a ∨ x ∈ l := by
  intro l
  induction l with
  | nil => intro x; simp [insertLE]
  | cons y ys ih =>
    intro x
    simp only [insertLE]
    split
    · simp [List.mem_cons]
    · simp only [List.mem_cons, ih]
      tauto

theorem mem_sortLE_aux {α : Type _} (le : α → α → Bool) :
    ∀ (xs acc : List α) (x : α),
      x ∈ xs.foldl (fun acc x => insertLE le x acc) acc ↔ x ∈ xs ∨ x ∈ acc := by
  intro xs
  induction xs with
  | nil => intro acc x; simp
  | cons y ys ih =>
    intro acc x
    simp only [List.foldl_cons, ih, mem_insertLE, List.mem_cons]
    tauto

theorem mem_sortLE {α : Type _} (le : α → α → Bool) (xs : List α) (x : α) :
    x ∈ sortLE le xs ↔ x ∈ xs := by
  unfold sortLE
  rw [mem_sortLE_aux]
  simp

theorem addToGroup_mem {κ β : Type _} [BEq κ] :
    ∀ (gs : List (κ × List β)) (k : κ) (x : β) (g : κ × List β),
      g ∈ addToGroup gs k x → ∀ y ∈ g.2, (∃ g' ∈ gs, y ∈ g'.2) ∨ y = x := by
  intro gs
  induction gs with
  | nil =>
    intro k x g hg y hy
    simp only [addToGroup, List.mem_singleton] at hg
    subst hg
    simp only [List.mem_singleton] at hy
    exact Or.inr hy
  | cons p rest ih =>
    intro k x g hg y hy
    obtain ⟨k', ys⟩ := p
    simp only [addToGroup] at hg
    split at hg
    · rcases List.mem_cons.mp hg with rfl | hg
      · rcases List.mem_append.mp hy with h | h
        · exact Or.inl ⟨(k', ys), by simp, h⟩
        · simp only [List.mem_singleton] at h
          exact Or.inr h
      · exact Or.inl ⟨g, List.mem_cons_of_mem _ hg, hy⟩
    · rcases List.mem_cons.mp hg with rfl | hg
      · exact Or.inl ⟨(k', ys), by simp, hy⟩
      · rcases ih k x g hg y hy with ⟨g', hg', hy'⟩ | h
        · exact Or.inl ⟨g', List.mem_cons_of_mem _ hg', hy'⟩
        · exact Or.inr h

theorem groupByKey_foldl_mem {κ β : Type _} [BEq κ] (key : β → κ) :
    ∀ (xs : List β) (acc : List (κ × List β)) (g : κ × List β),
      g ∈ xs.foldl (fun acc x => addToGroup acc (key x) x) acc →
      ∀ y ∈ g.2, (∃ g' ∈ acc, y ∈ g'.2) ∨ y ∈ xs := by
  intro xs
  induction xs with
  | nil => intro acc g hg y hy; exact Or.inl ⟨g, hg, hy⟩
  | cons x xs ih =>
    intro acc g hg y hy
    simp only [List.foldl_cons] at hg
    rcases ih _ g hg y hy with ⟨g', hg', hy'⟩ | h
    · rcases addToGroup_mem acc (key x) x g' hg' y hy' with h' | h'
      · exact Or.inl h'
      · subst h'
        exact Or.inr (by simp)
    · exact Or.inr (List.mem_cons_of_mem _ h)

theorem groupByKey_mem {κ β : Type _} [BEq κ] (key : β → κ) (xs : List β) :
    ∀ g ∈ groupByKey key xs, ∀ y ∈ g.2, y ∈ xs := by
  intro g hg y hy
  rcases groupByKey_foldl_mem key xs [] g hg y hy with ⟨g', hg', _⟩ | h
  · simp at hg'
  · exact h

theorem computeAreas_fst_lt (d : LatLng → LatLng → ℚ) (r : ℚ) (coords : List LatLng) :
    ∀ p ∈ computeAreas d r coords, p.1 < coords.length := by
  unfold computeAreas
  suffices h : ∀ (idxs : List ℕ) (acc : List (ℕ × ℕ)),
      (∀ p ∈ acc, p.1 < coords.length) → (∀ i ∈ idxs, i < coords.length) →
      ∀ p ∈ idxs.foldl
        (fun areas i =>
          match firstAssigned areas (neighbors d r coords i) with
          | some a => areas ++ [(i, a)]
          | none => areas ++ [(i, i)]) acc, p.1 < coords.length by
    exact h (List.range coords.length) [] (by simp) (fun i hi => List.mem_range.mp hi)
  intro idxs
  induction idxs with
  | nil => intro acc hacc _ p hp; exact hacc p hp
  | cons i is ih =>
    intro acc hacc hidx p hp
    simp only [List.foldl_cons] at hp
    refine ih _ ?_ (fun j hj => hidx j (List.mem_cons_of_mem _ hj)) p hp
    intro q hq
    have hi : i < coords.length := hidx i (by simp)
    split at hq <;>
    · rcases List.mem_append.mp hq with h | h
      · exact hacc q h
      · simp only [List.mem_singleton] at h
        subst h
        exact hi

theorem areaGroups_mem (d : LatLng → LatLng → ℚ) (r : ℚ) (bus_stops : List BusStop) :
    ∀ a ∈ areaGroups d r bus_stops, ∀ b ∈ a, b ∈ bus_stops := by
  intro a ha b hb
  unfold areaGroups at ha
  rw [List.mem_map] at ha
  obtain ⟨g, hg, rfl⟩ := ha
  rw [List.mem_map] at hb
  obtain ⟨p, hp, rfl⟩ := hb
  have hpc := groupByKey_mem (Prod.snd) _ g hg p hp
  have hlt := computeAreas_fst_lt d r _ p hpc
  exact getD_mem _ _ _ (by simpa using hlt)

theorem lookup_mem {κ β : Type _} [BEq κ] :
    ∀ (gs : List (κ × β)) (k : κ) (v : β), gs.lookup k = some v → ∃ g ∈ gs, g.2 = v := by
  intro gs
  induction gs with
  | nil => intro k v h; simp [List.lookup] at h
  | cons p rest ih =>
    intro k v h
    obtain ⟨k', v'⟩ := p
    cases hk : (k == k') with
    | true =>
      simp only [List.lookup, hk] at h
      exact ⟨(k', v'), by simp, by injection h⟩
    | false =>
      simp only [List.lookup, hk] at h
      obtain ⟨g, hg, hv⟩ := ih k v h
      exact ⟨g, List.mem_cons_of_mem _ hg, hv⟩

theorem setKey_mem {κ β : Type _} [BEq κ] (gs : List (κ × β)) (k : κ) (v : β) :
    ∀ g ∈ setKey gs k v, g = (k, v) ∨ g ∈ gs := by
  intro g hg
  unfold setKey at hg
  rw [List.mem_map] at hg
  obtain ⟨g', hg', rfl⟩ := hg
  split
  · exact Or.inl rfl
  · exact Or.inr hg'

theorem setKey_keys {κ β : Type _} [BEq κ] [LawfulBEq κ] (gs : List (κ × β))
    (k : κ) (v : β) : (setKey gs k v).map Prod.fst = gs.map Prod.fst := by
  unfold setKey
  rw [List.map_map]
  apply List.map_congr_left
  intro g _
  by_cases h : g.1 == k
  · simp [h, (eq_of_beq h).symm]
  · simp [h]

theorem appendMissing_decomp :
    ∀ (ps g : List BusStop), ∃ as,
      (appendMissing g ps).1 = g ++ as ∧
      as.Sublist ps ∧
      (as.map (fun b => b.public_transport)).Nodup ∧
      ∀ a ∈ as, a.public_transport ∉ g.map (fun b => b.public_transport) := by
  intro ps
  induction ps with
  | nil => intro g; exact ⟨[], by simp [appendMissing], List.Sublist.refl _, by simp, by simp⟩
  | cons p ps ih =>
    intro g
    have key : appendMissing g (p :: ps) =
        if g.any (fun b => b.public_transport == p.public_transport) then
          appendMissing g ps
        else ((appendMissing (g ++ [p]) ps).1, true) := rfl
    by_cases hc : g.any (fun b => b.public_transport == p.public_transport)
    · obtain ⟨as, h1, h2, h3, h4⟩ := ih g
      exact ⟨as, by rw [key, if_pos hc]; exact h1, h2.cons p, h3, h4⟩
    · obtain ⟨as, h1, h2, h3, h4⟩ := ih (g ++ [p])
      have hpg : p.public_transport ∉ g.map (fun b => b.public_transport) := by
        intro hp
        rw [List.mem_map] at hp
        obtain ⟨b, hb, hbp⟩ := hp
        exact hc (List.any_eq_true.mpr ⟨b, hb, by simp [hbp]⟩)
      refine ⟨p :: as, ?_, h2.cons₂ p, ?_, ?_⟩
      · rw [key, if_neg hc, h1, List.append_assoc]
        rfl
      · rw [List.map_cons, List.nodup_cons]
        refine ⟨?_, h3⟩
        intro hp
        rw [List.mem_map] at hp
        obtain ⟨a, ha, hap⟩ := hp
        have := h4 a ha
        rw [hap] at this
        exact this (by simp)
      · intro a ha
        rcases List.mem_cons.mp ha with rfl | ha
        · exact hpg
        · intro hmem
          exact h4 a ha (by rw [List.map_append]; exact List.mem_append_left _ hmem)

theorem mergeFold_mem (S : List BusStop) (pfxGroup : List BusStop)
    (hpg : ∀ b ∈ pfxGroup, b ∈ S) :
    ∀ (keys : List String) (st : List (String × List BusStop) × Bool),
      (∀ g ∈ st.1, ∀ b ∈ g.2, b ∈ S) →
      ∀ g ∈ (keys.foldl
        (fun st key =>
          match st.1.lookup key with
          | none => st
          | some g =>
            let gb := appendMissing g pfxGroup
            (setKey st.1 key gb.1, st.2 || gb.2)) st).1,
        ∀ b ∈ g.2, b ∈ S := by
  intro keys
  induction keys with
  | nil => intro st hst; exact hst
  | cons key ks ih =>
    intro st hst g hg b hb
    simp only [List.foldl_cons] at hg
    refine ih _ ?_ g hg b hb
    intro g' hg' b' hb'
    cases hlk : st.1.lookup key with
    | none =>
      rw [hlk] at hg'
      exact hst g' hg' b' hb'
    | some g0 =>
      rw [hlk] at hg'
      simp only at hg'
      rcases setKey_mem _ _ _ g' hg' with rfl | hmem
      · obtain ⟨as, ha1, ha2, _, _⟩ := appendMissing_decomp pfxGroup g0
        simp only at hb'
        rw [ha1] at hb'
        rcases List.mem_append.mp hb' with h | h
        · obtain ⟨gg, hgg, hgv⟩ := lookup_mem _ _ _ hlk
          exact hst gg hgg b' (by rw [hgv]; exact h)
        · exact hpg b' (ha2.subset h)
      · exact hst g' hmem b' hb'

theorem mergePfx_mem (S : List BusStop) (gs : List (String × List BusStop))
    (pfx : String) (keys : List String)
    (hgs : ∀ g ∈ gs, ∀ b ∈ g.2, b ∈ S) :
    ∀ g ∈ mergePfx gs pfx keys, ∀ b ∈ g.2, b ∈ S := by
  intro g hg b hb
  unfold mergePfx at hg
  cases hl : gs.lookup pfx with
  | none =>
    rw [hl] at hg
    exact hgs g hg b hb
  | some pfxGroup =>
    rw [hl] at hg
    simp only at hg
    have hpg : ∀ b ∈ pfxGroup, b ∈ S := by
      obtain ⟨gg, hgg, hgv⟩ := lookup_mem _ _ _ hl
      intro b hb
      exact hgs gg hgg b (by rw [hgv]; exact hb)
    have hfold := mergeFold_mem S pfxGroup hpg keys (gs, false) hgs
    split at hg
    · exact hfold g ((List.mem_filter.mp hg).1) b hb
    · exact hfold g hg b hb

theorem mergeGroups_mem (S : List BusStop) (gs : List (String × List BusStop))
    (hgs : ∀ g ∈ gs, ∀ b ∈ g.2, b ∈ S) :
    ∀ g ∈ mergeGroups gs, ∀ b ∈ g.2, b ∈ S := by
  unfold mergeGroups
  suffices h : ∀ (pms : List (String × List String)) (acc : List (String × List BusStop)),
      (∀ g ∈ acc, ∀ b ∈ g.2, b ∈ S) →
      ∀ g ∈ pms.foldl (fun acc pm => mergePfx acc pm.1 pm.2) acc, ∀ b ∈ g.2, b ∈ S by
    exact h (pfxMap gs) gs hgs
  intro pms
  induction pms with
  | nil => intro acc hacc; exact hacc
  | cons pm pms ih =>
    intro acc hacc
    simp only [List.foldl_cons]
    exact ih _ (mergePfx_mem S acc pm.1 pm.2 hacc)

theorem processArea_mem (area : List BusStop) :
    ∀ g ∈ processArea area, ∀ b ∈ g.2, b ∈ area := by
  unfold processArea
  apply mergeGroups_mem
  intro g hg b hb
  unfold dropUnnamed at hg
  split at hg
  · exact groupByKey_mem _ _ g ((List.mem_filter.mp hg).1) b hb
  · exact groupByKey_mem _ _ g hg b hb

theorem mergeFold_keys (pfxGroup : List BusStop) :
    ∀ (keys : List String) (st : List (String × List BusStop) × Bool),
      ((keys.foldl
        (fun st key =>
          match st.1.lookup key with
          | none => st
          | some g =>
            let gb := appendMissing g pfxGroup
            (setKey st.1 key gb.1, st.2 || gb.2)) st).1).map Prod.fst =
        st.1.map Prod.fst := by
  intro keys
  induction keys with
  | nil => intro st; rfl
  | cons key ks ih =>
    intro st
    simp only [List.foldl_cons]
    rw [ih]
    cases hlk : st.1.lookup key with
    | none => rfl
    | some g0 => exact setKey_keys st.1 key _

theorem mergePfx_keys (gs : List (String × List BusStop)) (pfx : String)
    (keys : List String) :
    ∀ g ∈ mergePfx gs pfx keys, g.1 ∈ gs.map Prod.fst := by
  intro g hg
  unfold mergePfx at hg
  cases hl : gs.lookup pfx with
  | none =>
    rw [hl] at hg
    exact List.mem_map_of_mem _ hg
  | some pfxGroup =>
    rw [hl] at hg
    simp only at hg
    have hk := mergeFold_keys pfxGroup keys (gs, false)
    split at hg
    · exact hk ▸ List.mem_map_of_mem Prod.fst ((List.mem_filter.mp hg).1)
    · exact hk ▸ List.mem_map_of_mem Prod.fst hg

theorem mergeGroups_keys (gs : List (String × List BusStop)) :
    ∀ g ∈ mergeGroups gs, g.1 ∈ gs.map Prod.fst := by
  unfold mergeGroups
  suffices h : ∀ (pms : List (String × List String)) (acc : List (String × List BusStop)),
      (∀ g ∈ acc, g.1 ∈ gs.map Prod.fst) →
      ∀ g ∈ pms.foldl (fun acc pm => mergePfx acc pm.1 pm.2) acc,
        g.1 ∈ gs.map Prod.fst by
    exact h (pfxMap gs) gs (fun g hg => List.mem_map_of_mem _ hg)
  intro pms
  induction pms with
  | nil => intro acc hacc; exact hacc
  | cons pm pms ih =>
    intro acc hacc
    simp only [List.foldl_cons]
    refine ih _ ?_
    intro g hg
    have := mergePfx_keys acc pm.1 pm.2 g hg
    rw [List.mem_map] at this
    obtain ⟨g', hg', he⟩ := this
    exact he ▸ hacc g' hg'

theorem groupPlatforms_mem (grp : List BusStop) :
    ∀ b ∈ groupPlatforms grp, b ∈ grp := by
  intro b hb
  exact (List.mem_filter.mp ((mem_sortLE _ _ b).mp hb)).1

theorem groupStops_mem (grp : List BusStop) :
    ∀ b ∈ groupStops grp, b ∈ grp := by
  intro b hb
  exact (List.mem_filter.mp ((mem_sortLE _ _ b).mp hb)).1

theorem pick_best_fst_mem (elements : List BusStop) :
    ∀ b ∈ (pick_best elements).1, b ∈ elements := by
  intro b hb
  exact (List.mem_filter.mp hb).1

theorem pick_best_snd_mem (elements : List BusStop) :
    ∀ b ∈ (pick_best elements).2, b ∈ elements := by
  intro b hb
  exact (List.mem_filter.mp hb).1

theorem groupPlatforms_mem_cat (grp : List BusStop) :
    ∀ b ∈ groupPlatforms grp,
      b ∈ grp ∧ b.public_transport = PublicTransport.platform := by
  intro b hb
  have h := List.mem_filter.mp ((mem_sortLE _ _ b).mp hb)
  exact ⟨h.1, by simpa using h.2⟩

theorem groupStops_mem_cat (grp : List BusStop) :
    ∀ b ∈ groupStops grp,
      b ∈ grp ∧ b.public_transport = PublicTransport.stop_position := by
  intro b hb
  have h := List.mem_filter.mp ((mem_sortLE _ _ b).mp hb)
  exact ⟨h.1, by simpa using h.2⟩

theorem matchGroup_shape (d : LatLng → LatLng → ℚ) (key : String) (grp : List BusStop) :
    ∀ c ∈ (matchGroup d key grp).1,
      (c.platform ≠ none ∨ c.stop ≠ none) ∧
      (∀ b, c.platform = some b →
        b ∈ grp ∧ b.public_transport = PublicTransport.platform) ∧
      (∀ b, c.stop = some b →
        b ∈ grp ∧ b.public_transport = PublicTransport.stop_position) := by
  intro c hc
  have hpe : ∀ b ∈ (pick_best (groupPlatforms grp)).1,
      b ∈ grp ∧ b.public_transport = PublicTransport.platform :=
    fun b hb => groupPlatforms_mem_cat grp b (pick_best_fst_mem _ b hb)
  have hpi : ∀ b ∈ (pick_best (groupPlatforms grp)).2,
      b ∈ grp ∧ b.public_transport = PublicTransport.platform :=
    fun b hb => groupPlatforms_mem_cat grp b (pick_best_snd_mem _ b hb)
  have hse : ∀ b ∈ (pick_best (groupStops grp)).1,
      b ∈ grp ∧ b.public_transport = PublicTransport.stop_position :=
    fun b hb => groupStops_mem_cat grp b (pick_best_fst_mem _ b hb)
  have hsi : ∀ b ∈ (pick_best (groupStops grp)).2,
      b ∈ grp ∧ b.public_transport = PublicTransport.stop_position :=
    fun b hb => groupStops_mem_cat grp b (pick_best_snd_mem _ b hb)
  unfold matchGroup at hc
  simp only at hc
  split at hc
  · rw [List.mem_map] at hc
    obtain ⟨⟨p, s⟩, hps, rfl⟩ := hc
    obtain ⟨hp, hs⟩ := List.of_mem_zip hps
    refine ⟨Or.inl (by simp), fun b hb => ?_, fun b hb => ?_⟩
    · simp only [Option.some.injEq] at hb
      exact hb ▸ hpe p hp
    · rcases assign_mem d _ _ true s hs with rfl | ⟨e, he, rfl⟩
      · simp at hb
      · simp only [Option.some.injEq] at hb
        exact hb ▸ groupStops_mem_cat grp e he
  · split at hc
    · rw [List.mem_map] at hc
      obtain ⟨⟨s, p⟩, hps, rfl⟩ := hc
      obtain ⟨hs, hp⟩ := List.of_mem_zip hps
      refine ⟨Or.inr (by simp), fun b hb => ?_, fun b hb => ?_⟩
      · rcases assign_mem d _ _ false p hp with rfl | ⟨e, he, rfl⟩
        · simp at hb
        · simp only [Option.some.injEq] at hb
          exact hb ▸ groupPlatforms_mem_cat grp e he
      · simp only [Option.some.injEq] at hb
        exact hb ▸ hse s hs
    · split at hc
      · rw [List.mem_map] at hc
        obtain ⟨⟨p, s⟩, hps, rfl⟩ := hc
        obtain ⟨hp, hs⟩ := List.of_mem_zip hps
        refine ⟨Or.inl (by simp), fun b hb => ?_, fun b hb => ?_⟩
        · simp only [Option.some.injEq] at hb
          exact hb ▸ hpi p hp
        · rcases assign_mem d _ _ true s hs with rfl | ⟨e, he, rfl⟩
          · simp at hb
          · simp only [Option.some.injEq] at hb
            exact hb ▸ groupStops_mem_cat grp e he
      · split at hc
        · rw [List.mem_map] at hc
          obtain ⟨p, hp, rfl⟩ := hc
          refine ⟨Or.inl (by simp), fun b hb => ?_, fun b hb => ?_⟩
          · simp only [Option.some.injEq] at hb
            exact hb ▸ hpi p hp
          · simp at hb
        · rw [List.mem_map] at hc
          obtain ⟨s, hs, rfl⟩ := hc
          refine ⟨Or.inr (by simp), fun b hb => ?_, fun b hb => ?_⟩
          · simp at hb
          · simp only [Option.some.injEq] at hb
            exact hb ▸ hsi s hs

theorem build_collections_shape (d : LatLng → LatLng → ℚ) (r : ℚ)
    (input : List BusStop) :
    ∀ c ∈ (build_bus_stop_collections d r input).1,
      (c.platform ≠ none ∨ c.stop ≠ none) ∧
      (∀ b, c.platform = some b →
        b ∈ input ∧ b.public_transport = PublicTransport.platform) ∧
      (∀ b, c.stop = some b →
        b ∈ input ∧ b.public_transport = PublicTransport.stop_position) := by
  intro c hc
  unfold build_bus_stop_collections at hc
  split at hc
  · simp at hc
  · simp only at hc
    rw [List.mem_flatten] at hc
    obtain ⟨cols, hcols, hcc⟩ := hc
    rw [List.mem_map] at hcols
    obtain ⟨res, hres, rfl⟩ := hcols
    rw [List.mem_map] at hres
    obtain ⟨g, hG, rfl⟩ := hres
    have hgm : ∀ b ∈ g.2, b ∈ input := by
      unfold allGroups at hG
      rw [List.mem_flatMap] at hG
      obtain ⟨area, harea, hpa⟩ := hG
      intro b hb
      exact areaGroups_mem d r input area harea b (processArea_mem area g hpa b hb)
    obtain ⟨h1, h2, h3⟩ := matchGroup_shape d g.1 g.2 c hcc
    exact ⟨h1, fun b hb => ⟨hgm b (h2 b hb).1, (h2 b hb).2⟩,
      fun b hb => ⟨hgm b (h3 b hb).1, (h3 b hb).2⟩⟩

theorem filter_not_of_filter_nil {α : Type _} (p : α → Bool) :
    ∀ l : List α, l.filter p = [] → l.filter (fun x => !p x) = l := by
  intro l
  induction l with
  | nil => intro _; rfl
  | cons x xs ih =>
    intro h
    rw [List.filter_cons] at h ⊢
    split at h
    · simp at h
    · rename_i hpx
      rw [if_pos (by simp at hpx ⊢; exact hpx), ih h]

theorem pick_best_snd_eq (elements : List BusStop)
    (h : (pick_best elements).1 = []) : (pick_best elements).2 = elements := by
  unfold pick_best at h ⊢
  exact filter_not_of_filter_nil (fun e => e.highway == "bus_stop") elements h

theorem nodup_map_filter_len {α β : Type _} [BEq β] [LawfulBEq β] (f : α → β) :
    ∀ l : List α, (l.map f).Nodup → ∀ c, (l.filter (fun x => f x == c)).length ≤ 1 := by
  intro l
  induction l with
  | nil => intro _ c; simp
  | cons x xs ih =>
    intro hnd c
    rw [List.map_cons, List.nodup_cons] at hnd
    obtain ⟨hx, hnd⟩ := hnd
    rw [List.filter_cons]
    split
    · rename_i hfx
      have hnil : xs.filter (fun y => f y == c) = [] := by
        rw [List.filter_eq_nil_iff]
        intro a ha hfa
        exact hx (List.mem_map.mpr ⟨a, ha, (eq_of_beq hfa).trans (eq_of_beq hfx).symm⟩)
      simp [hnil]
    · exact ih hnd c

theorem isEmpty_false_of_ne_nil {α : Type _} {l : List α} (h : l ≠ []) :
    l.isEmpty = false := by
  cases l with
  | nil => exact absurd rfl h
  | cons x xs => rfl

/-! The claims. -/

/-- C2: with at least 2 candidates and at least as many candidates as
primaries, `_assign` returns, in primary order, a pairwise-distinct choice of
candidates whose total great-circle distance is minimal among all one-to-one
pairings; concretely, 2 explicit platforms with 3 stops in one group yield
exactly the two optimal collections, no warning, and the surplus stop `s2`
appears in no collection. -/
theorem assign_hungarian_optimal :
    (∀ (d : LatLng → LatLng → ℚ) (primary elements : List BusStop) (reuse : Bool),
      2 ≤ elements.length → primary.length ≤ elements.length →
      ∃ l : List ℕ,
        assign d primary elements reuse =
          l.map (fun j => some (elements.getD j default)) ∧
        l.length = primary.length ∧ l.Nodup ∧ (∀ j ∈ l, j < elements.length) ∧
        ∀ l' : List ℕ, l'.length = primary.length → l'.Nodup →
          (∀ j ∈ l', j < elements.length) →
          assignCost d primary elements l ≤ assignCost d primary elements l') ∧
    (build_bus_stop_collections dtaxi 1000 [p0, p1, s0, s1, s2]).1 =
      [⟨some p0, some s0⟩, ⟨some p1, some s1⟩] ∧
    (build_bus_stop_collections dtaxi 1000 [p0, p1, s0, s1, s2]).2 = [] ∧
    ∀ c ∈ (build_bus_stop_collections dtaxi 1000 [p0, p1, s0, s1, s2]).1,
      c.stop ≠ some s2 := by
  refine ⟨?_, ?_, ?_, ?_⟩
  · intro d primary elements reuse h2 hle
    obtain ⟨l, hl, hlm, hmin⟩ := hungarianAssign_spec d primary elements hle
    obtain ⟨hlen, hnd, hlt⟩ := injSeqs_mem hlm
    refine ⟨l, ?_, hlen, hnd, hlt, ?_⟩
    · unfold assign
      rw [if_pos h2, if_neg (not_lt.mpr hle)]
      exact hl
    · intro l' h1' h2' h3'
      exact hmin l' (injSeqs_complete h1' h2' h3')
  · with_unfolding_all decide
  · with_unfolding_all decide
  · with_unfolding_all decide

/-- C2 witness: the general Hungarian-branch property applied to the concrete
balanced case (2 primaries, 3 candidates). -/
theorem assign_hungarian_optimal_witness :
    2 ≤ ([s0, s1, s2] : List BusStop).length ∧
    ([p0, p1] : List BusStop).length ≤ ([s0, s1, s2] : List BusStop).length ∧
    ∃ l : List ℕ,
      assign dtaxi [p0, p1] [s0, s1, s2] true =
        l.map (fun j => some ([s0, s1, s2].getD j default)) ∧
      l.length = ([p0, p1] : List BusStop).length ∧ l.Nodup ∧
      (∀ j ∈ l, j < ([s0, s1, s2] : List BusStop).length) ∧
      ∀ l' : List ℕ, l'.length = ([p0, p1] : List BusStop).length → l'.Nodup →
        (∀ j ∈ l', j < ([s0, s1, s2] : List BusStop).length) →
        assignCost dtaxi [p0, p1] [s0, s1, s2] l ≤
          assignCost dtaxi [p0, p1] [s0, s1, s2] l' :=
  ⟨by decide, by decide,
    assign_hungarian_optimal.1 dtaxi [p0, p1] [s0, s1, s2] true (by decide) (by decide)⟩

/-- C3: `_assign` with 0 candidates yields no match for every primary; with
exactly 1 candidate it broadcasts that candidate unless reuse is disallowed
and there are several primaries (then no match); with at least 2 but fewer
candidates than primaries it yields no match when reuse is disallowed, and
the per-primary nearest candidate (reusable) when reuse is allowed. -/
theorem assign_small_cases :
    (∀ (d : LatLng → LatLng → ℚ) (primary : List BusStop) (reuse : Bool),
      assign d primary [] reuse = List.replicate primary.length none) ∧
    (∀ (d : LatLng → LatLng → ℚ) (primary : List BusStop) (e : BusStop) (reuse : Bool),
      assign d primary [e] reuse =
        if reuse = false ∧ 1 < primary.length then List.replicate primary.length none
        else List.replicate primary.length (some e)) ∧
    ∀ (d : LatLng → LatLng → ℚ) (primary elements : List BusStop),
      2 ≤ elements.length → elements.length < primary.length →
      assign d primary elements false = List.replicate primary.length none ∧
      assign d primary elements true =
        primary.map (fun p => nearestElem d p elements) ∧
      ∀ p ∈ primary, ∃ c, nearestElem d p elements = some c ∧ c ∈ elements ∧
        ∀ e ∈ elements, d p.latLng c.latLng ≤ d p.latLng e.latLng := by
  refine ⟨?_, ?_, ?_⟩
  · intro d primary reuse
    simp [assign]
  · intro d primary e reuse
    cases reuse with
    | false =>
      by_cases hp : 1 < primary.length
      · simp [assign, hp]
      · simp [assign, hp]
    | true => simp [assign]
  · intro d primary elements h2 hlt
    refine ⟨?_, ?_, ?_⟩
    · unfold assign
      rw [if_pos h2, if_pos hlt, if_pos (by simp)]
    · unfold assign
      rw [if_pos h2, if_pos hlt, if_neg (by simp)]
    · intro p hp
      exact nearestElem_spec d p elements (by intro h; subst h; simp at h2)

/-- C3 witness: the three candidate-count regimes at concrete inputs. -/
theorem assign_small_cases_witness :
    assign dzero [q0, q1] [] true = [none, none] ∧
    assign dzero [q0, q1] [e0] false = [none, none] ∧
    assign dzero [q0, q1] [e0] true = [some e0, some e0] ∧
    2 ≤ ([e0, e1] : List BusStop).length ∧
    ([e0, e1] : List BusStop).length < ([q0, q1, q2] : List BusStop).length ∧
    assign dtaxi [q0, q1, q2] [e0, e1] false = [none, none, none] ∧
    assign dtaxi [q0, q1, q2] [e0, e1] true =
      [q0, q1, q2].map (fun p => nearestElem dtaxi p [e0, e1]) := by
  refine ⟨?_, ?_, ?_, by decide, by decide, ?_, ?_⟩
  · have h := assign_small_cases.1 dzero [q0, q1] true
    simpa using h
  · have h := assign_small_cases.2.1 dzero [q0, q1] e0 false
    simpa using h
  · have h := assign_small_cases.2.1 dzero [q0, q1] e0 true
    simpa using h
  · exact (assign_small_cases.2.2 dtaxi [q0, q1, q2] [e0, e1]
      (by decide) (by decide)).1.trans (by decide)
  · exact (assign_small_cases.2.2 dtaxi [q0, q1, q2] [e0, e1]
      (by decide) (by decide)).2.1

/-- C9: every collection returned by `build_bus_stop_collections` has at least
one populated side, and every referenced record is one of the input records. -/
theorem collections_wellformed (d : LatLng → LatLng → ℚ) (r : ℚ)
    (input : List BusStop) :
    ∀ c ∈ (build_bus_stop_collections d r input).1,
      (c.platform ≠ none ∨ c.stop ≠ none) ∧
      (∀ b, c.platform = some b → b ∈ input) ∧
      (∀ b, c.stop = some b → b ∈ input) := by
  intro c hc
  obtain ⟨h1, h2, h3⟩ := build_collections_shape d r input c hc
  exact ⟨h1, fun b hb => (h2 b hb).1, fun b hb => (h3 b hb).1⟩

/-- C9 witness: the well-formedness facts for the one collection built from
the unnamed implicit pair. -/
theorem collections_wellformed_witness :
    (⟨some u0, some u1⟩ : Collection) ∈
      (build_bus_stop_collections dzero 10 [u0, u1]).1 ∧
    (((⟨some u0, some u1⟩ : Collection).platform ≠ none ∨
        (⟨some u0, some u1⟩ : Collection).stop ≠ none) ∧
      (∀ b, (⟨some u0, some u1⟩ : Collection).platform = some b → b ∈ [u0, u1]) ∧
      (∀ b, (⟨some u0, some u1⟩ : Collection).stop = some b → b ∈ [u0, u1])) :=
  ⟨by decide, collections_wellformed dzero 10 [u0, u1] ⟨some u0, some u1⟩ (by decide)⟩

/-- C10: the numbered-suffix merge checks each bare-prefix record against the
numbered group as already extended by this pass's earlier appends: the records
appended to a group are a subsequence of the bare-prefix group with pairwise
distinct categories (hence at most one per category), none of which was
already present in the numbered group. -/
theorem appendMissing_incremental :
    ∀ (g ps : List BusStop), ∃ as,
      (appendMissing g ps).1 = g ++ as ∧
      as.Sublist ps ∧
      (∀ a ∈ as, a.public_transport ∉ g.map (fun b => b.public_transport)) ∧
      ∀ cat : PublicTransport,
        (as.filter (fun a => a.public_transport == cat)).length ≤ 1 := by
  intro g ps
  obtain ⟨as, h1, h2, h3, h4⟩ := appendMissing_decomp ps g
  exact ⟨as, h1, h2, h4, fun cat =>
    nodup_map_filter_len (fun b => b.public_transport) as h3 cat⟩

/-- C7: the numbered-suffix merge on groups `"Elm 1"` (platform only),
`"Elm 2"` (stop only) and `"Elm"` (platform and stop) appends the `"Elm"`
stop to `"Elm 1"`, the `"Elm"` platform to `"Elm 2"`, and removes the
`"Elm"` group entirely. -/
theorem numbered_suffix_merge_example :
    processArea [ma, mb, mc, me] = [("Elm 1", [ma, me]), ("Elm 2", [mb, mc])] := by
  decide

/-- C8: in an area with more than one distinct label, the empty-label group is
discarded before matching; when the empty label is the only one, the unnamed
group is kept — a single unnamed implicit platform and stop within radius
yield exactly one collection pairing them. -/
theorem unnamed_group_discard :
    (∀ area : List BusStop, 1 < (groupByKey BusStop.groupName area).length →
      ∀ g ∈ processArea area, g.1 ≠ "") ∧
    (build_bus_stop_collections dzero 10 [u0, u1]).1 = [⟨some u0, some u1⟩] := by
  constructor
  · intro area hlen g hg
    unfold processArea at hg
    have hkey := mergeGroups_keys _ g hg
    unfold dropUnnamed at hkey
    rw [if_pos hlen, List.mem_map] at hkey
    obtain ⟨g', hg', he⟩ := hkey
    have h2 := (List.mem_filter.mp hg').2
    simp only [bne_iff_ne] at h2
    rw [he] at h2
    exact h2
  · decide

/-- C8 witness: a two-label area (one unnamed, one named record) satisfies the
multi-label hypothesis and its processed groups carry no empty label. -/
theorem unnamed_group_discard_witness :
    1 < (groupByKey BusStop.groupName [u0, y1]).length ∧
    ∀ g ∈ processArea [u0, y1], g.1 ≠ "" :=
  ⟨by decide, fun g hg => unnamed_group_discard.1 [u0, y1] (by decide) g hg⟩

/-- C5: a named group with no explicit platforms and no explicit stops but
with implicit platforms and implicit stops emits exactly one collection per
implicit platform, assigning each implicit platform an implicit stop with
reuse allowed. -/
theorem implicit_pair_branch (d : LatLng → LatLng → ℚ) (key : String)
    (grp : List BusStop)
    (hpe : (pick_best (groupPlatforms grp)).1 = [])
    (hse : (pick_best (groupStops grp)).1 = [])
    (hpi : (pick_best (groupPlatforms grp)).2 ≠ [])
    (hsi : (pick_best (groupStops grp)).2 ≠ []) :
    (matchGroup d key grp).1 =
      ((pick_best (groupPlatforms grp)).2.zip
        (assign d (pick_best (groupPlatforms grp)).2
          (pick_best (groupStops grp)).2 true)).map
        (fun ps => ⟨some ps.1, ps.2⟩) ∧
    (matchGroup d key grp).1.length = (pick_best (groupPlatforms grp)).2.length ∧
    ∀ c ∈ (matchGroup d key grp).1,
      (∃ p ∈ (pick_best (groupPlatforms grp)).2, c.platform = some p) ∧
      ∃ s ∈ (pick_best (groupStops grp)).2, c.stop = some s := by
  have hstops : (pick_best (groupStops grp)).2 = groupStops grp :=
    pick_best_snd_eq _ hse
  have hne : groupStops grp ≠ [] := by rw [← hstops]; exact hsi
  have hpi' := isEmpty_false_of_ne_nil hpi
  have hsi' := isEmpty_false_of_ne_nil hsi
  have hpe' : (pick_best (groupPlatforms grp)).1.isEmpty = true := by rw [hpe]; rfl
  have hse' : (pick_best (groupStops grp)).1.isEmpty = true := by rw [hse]; rfl
  have hmain : (matchGroup d key grp).1 =
      ((pick_best (groupPlatforms grp)).2.zip
        (assign d (pick_best (groupPlatforms grp)).2 (groupStops grp) true)).map
        (fun ps => ⟨some ps.1, ps.2⟩) := by
    unfold matchGroup
    simp [hpe', hse', hpi', hsi']
  refine ⟨by rw [hmain, hstops], ?_, ?_⟩
  · rw [hmain]
    simp [assign_length]
  · intro c hc
    rw [hmain, List.mem_map] at hc
    obtain ⟨⟨p, s⟩, hps, rfl⟩ := hc
    obtain ⟨hp, hs⟩ := List.of_mem_zip hps
    obtain ⟨e, he, rfl⟩ := assign_some d _ (groupStops grp) hne s hs
    exact ⟨⟨p, hp, rfl⟩, ⟨e, by rw [hstops]; exact he, rfl⟩⟩

/-- C5 witness: the unnamed implicit platform/stop pair satisfies the
implicit-branch hypotheses and yields the paired collection. -/
theorem implicit_pair_branch_witness :
    (pick_best (groupPlatforms [u0, u1])).1 = [] ∧
    (pick_best (groupStops [u0, u1])).1 = [] ∧
    (pick_best (groupPlatforms [u0, u1])).2 ≠ [] ∧
    (pick_best (groupStops [u0, u1])).2 ≠ [] ∧
    ((matchGroup dzero "" [u0, u1]).1 =
      ((pick_best (groupPlatforms [u0, u1])).2.zip
        (assign dzero (pick_best (groupPlatforms [u0, u1])).2
          (pick_best (groupStops [u0, u1])).2 true)).map
        (fun ps => ⟨some ps.1, ps.2⟩) ∧
    (matchGroup dzero "" [u0, u1]).1.length =
      (pick_best (groupPlatforms [u0, u1])).2.length ∧
    ∀ c ∈ (matchGroup dzero "" [u0, u1]).1,
      (∃ p ∈ (pick_best (groupPlatforms [u0, u1])).2, c.platform = some p) ∧
      ∃ s ∈ (pick_best (groupStops [u0, u1])).2, c.stop = some s) :=
  ⟨by decide, by decide, by decide, by decide,
    implicit_pair_branch dzero "" [u0, u1]
      (by decide) (by decide) (by decide) (by decide)⟩

/-- C6: a named group holding both an explicit platform and an explicit stop
emits the non-fatal ambiguity warning and proceeds with the explicit-platform
branch: one collection per explicit platform, stops assigned from the full
stop list with reuse allowed. -/
theorem explicit_conflict_warns (d : LatLng → LatLng → ℚ) (key : String)
    (grp : List BusStop)
    (hpe : (pick_best (groupPlatforms grp)).1 ≠ [])
    (hse : (pick_best (groupStops grp)).1 ≠ []) :
    (matchGroup d key grp).2 =
      ["🚧 Warning: Unexpected explicit platforms and stops for " ++ key] ∧
    (matchGroup d key grp).1 =
      ((pick_best (groupPlatforms grp)).1.zip
        (assign d (pick_best (groupPlatforms grp)).1 (groupStops grp) true)).map
        (fun ps => ⟨some ps.1, ps.2⟩) ∧
    (matchGroup d key grp).1.length = (pick_best (groupPlatforms grp)).1.length := by
  have hpe' := isEmpty_false_of_ne_nil hpe
  have hse' := isEmpty_false_of_ne_nil hse
  have hwarn : (matchGroup d key grp).2 =
      ["🚧 Warning: Unexpected explicit platforms and stops for " ++ key] := by
    unfold matchGroup
    simp [hpe', hse']
  have hmain : (matchGroup d key grp).1 =
      ((pick_best (groupPlatforms grp)).1.zip
        (assign d (pick_best (groupPlatforms grp)).1 (groupStops grp) true)).map
        (fun ps => ⟨some ps.1, ps.2⟩) := by
    unfold matchGroup
    simp [hpe']
  refine ⟨hwarn, hmain, ?_⟩
  rw [hmain]
  simp [assign_length]

/-- C6 witness: a group with one explicit platform and one explicit stop warns
and emits the explicit-platform collections. -/
theorem explicit_conflict_warns_witness :
    (pick_best (groupPlatforms [p0, s9])).1 ≠ [] ∧
    (pick_best (groupStops [p0, s9])).1 ≠ [] ∧
    ((matchGroup dzero "X" [p0, s9]).2 =
      ["🚧 Warning: Unexpected explicit platforms and stops for " ++ "X"] ∧
    (matchGroup dzero "X" [p0, s9]).1 =
      ((pick_best (groupPlatforms [p0, s9])).1.zip
        (assign dzero (pick_best (groupPlatforms [p0, s9])).1
          (groupStops [p0, s9]) true)).map
        (fun ps => ⟨some ps.1, ps.2⟩) ∧
    (matchGroup dzero "X" [p0, s9]).1.length =
      (pick_best (groupPlatforms [p0, s9])).1.length) :=
  ⟨by decide, by decide,
    explicit_conflict_warns dzero "X" [p0, s9] (by decide) (by decide)⟩

/-- C1 counterexample: with a named and an unnamed implicit platform sharing
one area, the unnamed record `cB` appears in no output collection even though
no Hungarian surplus assignment occurs anywhere in the run — refuting that the
surplus case is the only way a record ends up in no collection. -/
theorem record_dropped_without_surplus :
    cB ∈ ([cA, cB] : List BusStop) ∧
    (∀ c ∈ (build_bus_stop_collections dzero 10 [cA, cB]).1,
      c.platform ≠ some cB ∧ c.stop ≠ some cB) ∧
    hungarianSurplus dzero 10 [cA, cB] = false := by
  decide

/-- C1 amended: every record referenced by an output collection is an input
record appearing in the capacity matching its category (platform records only
on the platform side, stop positions only on the stop side); but a record
whose group yields no collection is possible outside the Hungarian surplus
case as well, e.g. when its unnamed group is discarded. -/
theorem capacity_consistent_drops_possible :
    (∀ (d : LatLng → LatLng → ℚ) (r : ℚ) (input : List BusStop),
      ∀ c ∈ (build_bus_stop_collections d r input).1,
        (∀ b, c.platform = some b →
          b ∈ input ∧ b.public_transport = PublicTransport.platform) ∧
        (∀ b, c.stop = some b →
          b ∈ input ∧ b.public_transport = PublicTransport.stop_position)) ∧
    ∃ (input : List BusStop) (b : BusStop), b ∈ input ∧
      (∀ c ∈ (build_bus_stop_collections dzero 10 input).1,
        c.platform ≠ some b ∧ c.stop ≠ some b) ∧
      hungarianSurplus dzero 10 input = false := by
  constructor
  · intro d r input c hc
    obtain ⟨_, h2, h3⟩ := build_collections_shape d r input c hc
    exact ⟨h2, h3⟩
  · exact ⟨[cA, cB], cB, by decide, by decide, by decide⟩

/-- C1 witness: the capacity-consistency part applied to the collection built
from the unnamed implicit pair. -/
theorem capacity_consistent_drops_possible_witness :
    (⟨some u0, some u1⟩ : Collection) ∈
      (build_bus_stop_collections dzero 10 [u0, u1]).1 ∧
    ((∀ b, (⟨some u0, some u1⟩ : Collection).platform = some b →
        b ∈ [u0, u1] ∧ b.public_transport = PublicTransport.platform) ∧
      (∀ b, (⟨some u0, some u1⟩ : Collection).stop = some b →
        b ∈ [u0, u1] ∧ b.public_transport = PublicTransport.stop_position)) :=
  ⟨by decide,
    capacity_consistent_drops_possible.1 dzero 10 [u0, u1] ⟨some u0, some u1⟩ (by decide)⟩

/-- C4: for three records at input indices 0, 1, 2 with d(A,B) < r,
d(B,C) < r and d(A,C) > r, area grouping assigns all three the same area
(index 0's root), by chaining through the middle record. -/
theorem area_chaining_transitive (d : LatLng → LatLng → ℚ) (r : ℚ)
    (A B C : BusStop) (hsymm : ∀ x y, d x y = d y x)
    (hAB : d A.latLng B.latLng < r) (hBC : d B.latLng C.latLng < r)
    (hAC : r < d A.latLng C.latLng) :
    computeAreas d r [A.latLng, B.latLng, C.latLng] = [(0, 0), (1, 0), (2, 0)] := by
  have hab : d A.latLng B.latLng ≤ r := le_of_lt hAB
  have hbc : d B.latLng C.latLng ≤ r := le_of_lt hBC
  have hba : d B.latLng A.latLng ≤ r := by rw [hsymm]; exact hab
  have hcb : d C.latLng B.latLng ≤ r := by rw [hsymm]; exact hbc
  have hac : ¬ d A.latLng C.latLng ≤ r := not_le.mpr hAC
  have hca : ¬ d C.latLng A.latLng ≤ r := by rw [hsymm]; exact hac
  have e1 : decide (d A.latLng B.latLng ≤ r) = true := decide_eq_true hab
  have e2 : decide (d A.latLng C.latLng ≤ r) = false := decide_eq_false hac
  have e3 : decide (d B.latLng A.latLng ≤ r) = true := decide_eq_true hba
  have e4 : decide (d B.latLng C.latLng ≤ r) = true := decide_eq_true hbc
  have e5 : decide (d C.latLng A.latLng ≤ r) = false := decide_eq_false hca
  have e6 : decide (d C.latLng B.latLng ≤ r) = true := decide_eq_true hcb
  have hrange : List.range (3 : ℕ) = [0, 1, 2] := rfl
  have g0 : List.getD [A.latLng, B.latLng, C.latLng] 0 default = A.latLng := rfl
  have g1 : List.getD [A.latLng, B.latLng, C.latLng] 1 default = B.latLng := rfl
  have g2 : List.getD [A.latLng, B.latLng, C.latLng] 2 default = C.latLng := rfl
  have g0' : ([A.latLng, B.latLng, C.latLng][(0 : ℕ)]?).getD default = A.latLng := rfl
  have g1' : ([A.latLng, B.latLng, C.latLng][(1 : ℕ)]?).getD default = B.latLng := rfl
  have g2' : ([A.latLng, B.latLng, C.latLng][(2 : ℕ)]?).getD default = C.latLng := rfl
  cases hb : nbrLE d B.latLng [A.latLng, B.latLng, C.latLng] 2 0 <;>
    simp [computeAreas, hrange, neighbors, sortLE, insertLE, firstAssigned,
      List.lookup, List.filter_cons, g0, g1, g2, g0', g1', g2',
      e1, e2, e3, e4, e5, e6, hab, hba, hbc, hcb, hac, hca, hb]

/-- C4 witness: taxicab distance, records at (0,0), (0,7), (0,14), radius 10:
the chaining hypotheses hold and all three records land in area 0. -/
theorem area_chaining_transitive_witness :
    (∀ x y : LatLng, dtaxi x y = dtaxi y x) ∧
    dtaxi w0.latLng w1.latLng < 10 ∧
    dtaxi w1.latLng w2.latLng < 10 ∧
    (10 : ℚ) < dtaxi w0.latLng w2.latLng ∧
    computeAreas dtaxi 10 [w0.latLng, w1.latLng, w2.latLng] =
      [(0, 0), (1, 0), (2, 0)] :=
  ⟨fun x y => by simp [dtaxi, abs_sub_comm],
   by with_unfolding_all decide,
   by with_unfolding_all decide,
   by with_unfolding_all decide,
   area_chaining_transitive dtaxi 10 w0 w1 w2
     (fun x y => by simp [dtaxi, abs_sub_comm])
     (by with_unfolding_all decide)
     (by with_unfolding_all decide)
     (by with_unfolding_all decide)⟩

end BusCollection
